import Mathlib

/-!
# Verification of the dotmgr specification against `dotmgr/manager.py`

This file shallowly embeds the text-filtering engine and the file-synchronization
operations of `dotmgr` (class `Manager` in `dotmgr/manager.py`) and proves or
refutes the specification's claims about them.

Lines of a file are modelled as `List Char`; a file's content is a `List Char`
and `readLines` mirrors Python's `readlines`.  Host tags are `List (List Char)`.
A fatal `exit()` in the Python code is modelled by an `Option` result being
`none`.
-/

set_option autoImplicit false

namespace Dotmgr

/-- The whitespace characters of Python's `str.split()` / `\s` (ASCII part). -/
def pyIsSpace (c : Char) : Bool :=
  c = ' ' || c = '\t' || c = '\n' || c = '\r' || c = '\x0b' || c = '\x0c'

/-- Accumulator worker for `tokens`; `acc` holds the (reversed) token in progress. -/
def tokensAux : List Char → List Char → List (List Char)
  | [], acc => if acc.isEmpty then [] else [acc.reverse]
  | c :: rest, acc =>
    if pyIsSpace c then
      if acc.isEmpty then tokensAux rest [] else acc.reverse :: tokensAux rest []
    else tokensAux rest (c :: acc)

/-- Maximal runs of non-whitespace characters of a line, in order.
This is both Python's `re.findall(r'\S+', line)` (manager.py line 209) and
Python's `line.split()` (lines 121, 131, 301, 311): the two coincide. -/
def tokens (s : List Char) : List (List Char) := tokensAux s []

/-- Model of `Manager._identify_comment_sequence` (manager.py lines 200-216):
first `\S+` match of the line; `none` models the fatal `exit()` when the
line holds no non-whitespace token. -/
def identifyCommentSequence (line : List Char) : Option (List Char) :=
  (tokens line).head?

/-- First occurrence of `sep` in a string: `some (pre, post)` with the text
before and after the leftmost occurrence, `none` if `sep` does not occur. -/
def splitFirst (sep : List Char) : List Char → Option (List Char × List Char)
  | [] => if sep.isPrefixOf ([] : List Char) then some ([], []) else none
  | c :: rest =>
    if sep.isPrefixOf (c :: rest) then some ([], (c :: rest).drop sep.length)
    else (splitFirst sep rest).map fun p => (c :: p.1, p.2)

/-- Python's substring test `pat in line`. -/
def hasSub (pat s : List Char) : Bool := (splitFirst pat s).isSome

/-- Fueled worker for `pySplit`; the fuel bounds the number of separator hits. -/
def pySplitAux : Nat → List Char → List Char → List (List Char)
  | 0, _, s => [s]
  | fuel + 1, sep, s =>
    match splitFirst sep s with
    | none => [s]
    | some (pre, post) => pre :: pySplitAux fuel sep post

/-- Python's `s.split(sep)` for a non-empty separator (manager.py line 145,
`line.split(cseq)`, and line 192, `line.split(':')`). -/
def pySplit (sep s : List Char) : List (List Char) := pySplitAux (s.length + 1) sep s

/-- Python's `sep.join(parts)` (manager.py line 146). -/
def pyJoin (sep : List Char) : List (List Char) → List Char
  | [] => []
  | [x] => x
  | x :: y :: rest => x ++ sep ++ pyJoin sep (y :: rest)

/-- Accumulator worker for `readLines`. -/
def readLinesAux : List Char → List Char → List (List Char)
  | [], acc => if acc.isEmpty then [] else [acc.reverse]
  | c :: rest, acc =>
    if c = '\n' then (c :: acc).reverse :: readLinesAux rest []
    else readLinesAux rest (c :: acc)

/-- Python's `file.readlines()`: split after each newline, keeping the
newline at the end of each line. -/
def readLines (s : List Char) : List (List Char) := readLinesAux s []

/-- The directive pattern `'{0}{0}only'.format(cseq)` (manager.py lines 120, 300). -/
def onlyDirective (cseq : List Char) : List Char := cseq ++ cseq ++ "only".toList

/-- The directive pattern `'{0}{0}not'.format(cseq)` (manager.py lines 130, 310). -/
def notDirective (cseq : List Char) : List Char := cseq ++ cseq ++ "not".toList

/-- The directive pattern `'{0}{0}end'.format(cseq)` (manager.py lines 141, 321). -/
def endDirective (cseq : List Char) : List Char := cseq ++ cseq ++ "end".toList

/-- Model of `section_tags = line.split(); section_tags = section_tags[1:]`
(manager.py lines 121-122 and 301-302). -/
def sectionTags (line : List Char) : List (List Char) := (tokens line).drop 1

/-- Model of `[tag for tag in self._tags if tag in section_tags]`
(manager.py lines 125, 135, 305, 315). -/
def matchingTags (tags : List (List Char)) (line : List Char) : List (List Char) :=
  tags.filter fun t => (sectionTags line).contains t

/-- One line of `Manager.specialize.filter_and_write` (manager.py lines 299-327):
given the comment-out flag before the line, returns the flag after the line and
the text written for it. -/
def specStep (tags : List (List Char)) (cseq : List Char) (comment_out : Bool)
    (line : List Char) : Bool × List Char :=
  if hasSub (onlyDirective cseq) line && (matchingTags tags line).isEmpty then
    (true, line)
  else
    let c1 := if hasSub (onlyDirective cseq) line then false else comment_out
    if hasSub (notDirective cseq) line && !(matchingTags tags line).isEmpty then
      (true, line)
    else
      let c2 := if hasSub (notDirective cseq) line then false else c1
      let c3 := if hasSub (endDirective cseq) line then false else c2
      (c3, if c3 then cseq ++ line else line)

/-- The text written for a stripped line in `Manager.generalize.filter_and_write`:
`slices = line.split(cseq); dotfile.write(cseq.join(slices[1:]))`
(manager.py lines 145-146). -/
def stripWrite (cseq line : List Char) : List Char :=
  pyJoin cseq ((pySplit cseq line).drop 1)

/-- One line of `Manager.generalize.filter_and_write` (manager.py lines 118-148):
given the strip flag before the line, returns the flag after the line and the
text written for it. -/
def genStep (tags : List (List Char)) (cseq : List Char) (strip : Bool)
    (line : List Char) : Bool × List Char :=
  if hasSub (onlyDirective cseq) line && (matchingTags tags line).isEmpty then
    (true, line)
  else
    let s1 := if hasSub (onlyDirective cseq) line then false else strip
    if hasSub (notDirective cseq) line && !(matchingTags tags line).isEmpty then
      (true, line)
    else
      let s2 := if hasSub (notDirective cseq) line then false else s1
      let s3 := if hasSub (endDirective cseq) line then false else s2
      (s3, if s3 then stripWrite cseq line else line)

/-- The `for line in content` loop of `Manager.specialize.filter_and_write`:
the sequence of texts written to the stage file. -/
def specFilter (tags : List (List Char)) (cseq : List Char) :
    Bool → List (List Char) → List (List Char)
  | _, [] => []
  | co, line :: rest =>
    let s := specStep tags cseq co line
    s.2 :: specFilter tags cseq s.1 rest

/-- The `for line in content` loop of `Manager.generalize.filter_and_write`:
the sequence of texts written to the repository file. -/
def genFilter (tags : List (List Char)) (cseq : List Char) :
    Bool → List (List Char) → List (List Char)
  | _, [] => []
  | st, line :: rest =>
    let s := genStep tags cseq st line
    s.2 :: genFilter tags cseq s.1 rest

/-- Model of `Manager.specialize`'s handling of a repository file's lines
(manager.py lines 290-338): `none` models both the early `return` on empty
content (nothing written) and the fatal `exit()` inside
`_identify_comment_sequence`. -/
def filterSpecialize (tags : List (List Char)) (content : List (List Char)) :
    Option (List (List Char)) :=
  match content with
  | [] => none
  | first :: rest =>
    match identifyCommentSequence first with
    | none => none
    | some cseq => some (specFilter tags cseq false (first :: rest))

/-- Model of `Manager.generalize`'s handling of a stage file's lines
(manager.py lines 110-163): `none` models the early `return` on empty content
and the fatal `exit()` inside `_identify_comment_sequence`. -/
def filterGeneralize (tags : List (List Char)) (content : List (List Char)) :
    Option (List (List Char)) :=
  match content with
  | [] => none
  | first :: rest =>
    match identifyCommentSequence first with
    | none => none
    | some cseq => some (genFilter tags cseq false (first :: rest))

/-- End-to-end specialize on a whole file content: `readlines`, filter,
sequential writes (concatenation). -/
def specializePipeline (tags : List (List Char)) (fileContent : List Char) :
    Option (List Char) :=
  (filterSpecialize tags (readLines fileContent)).map List.flatten

/-- End-to-end generalize on a whole file content: `readlines`, filter,
sequential writes (concatenation). -/
def generalizePipeline (tags : List (List Char)) (fileContent : List Char) :
    Option (List Char) :=
  (filterGeneralize tags (readLines fileContent)).map List.flatten

/-- The line contains some directive pattern. -/
def hasDirective (cseq line : List Char) : Bool :=
  hasSub (onlyDirective cseq) line || hasSub (notDirective cseq) line
    || hasSub (endDirective cseq) line

/-- Safety predicate for inverting specialize by generalize: along the run of
the specialize machine, whenever a non-directive line is written in comment-out
mode, prepending the comment sequence must not create (or contain) a directive
pattern — otherwise the generalize pass would parse the commented line as a
directive instead of stripping it. -/
def genSafe (tags : List (List Char)) (cseq : List Char) :
    Bool → List (List Char) → Bool
  | _, [] => true
  | co, line :: rest =>
    let s := specStep tags cseq co line
    ((!(s.1 && !hasDirective cseq line)) || !hasDirective cseq (cseq ++ line))
      && genSafe tags cseq s.1 rest

/-! ### Tag resolution (`Manager._get_tags`) -/

/-- Model of `Manager._get_tags` (manager.py lines 177-198), parameterized by the
hostname and the tag-configuration lines.  The match test is
`line.startswith(hostname + ':')`, the returned tags are
`line.split(':')[1].split()`.  The second component records whether the
"No tags found" warning is printed (the fall-through case); the fall-through
value is the singleton `[""]`. -/
def get_tags (hostname : List Char) : List (List Char) → List (List Char) × Bool
  | [] => ([[]], true)
  | line :: rest =>
    if (hostname ++ [':']).isPrefixOf line then
      (tokens ((pySplit [':'] line).getD 1 []), false)
    else get_tags hostname rest

/-- Claim C5's description of tag resolution, following the spec's words:
return the whitespace-split tag list (the text after the first `:`) of the
first line whose text before the first `:` equals the hostname exactly;
otherwise the singleton list of the empty string, with a warning. -/
def get_tags_claimed (hostname : List Char) :
    List (List Char) → List (List Char) × Bool
  | [] => ([[]], true)
  | line :: rest =>
    match splitFirst [':'] line with
    | some (pre, post) =>
      if pre = hostname then (tokens post, false) else get_tags_claimed hostname rest
    | none => get_tags_claimed hostname rest

/-- The text between the first and the second `:` of a line (the whole text
after the first `:` when there is no second one). -/
def secondField (line : List Char) : List Char :=
  match splitFirst [':'] line with
  | none => []
  | some (_, post) =>
    match splitFirst [':'] post with
    | none => post
    | some (mid, _) => mid

/-- Amended description of tag resolution: the whitespace-split of the text
between the first and second `:` of the first line that starts with the
hostname followed by `:`. -/
def get_tags_amended (hostname : List Char) :
    List (List Char) → List (List Char) × Bool
  | [] => ([[]], true)
  | line :: rest =>
    if (hostname ++ [':']).isPrefixOf line then (tokens (secondField line), false)
    else get_tags_amended hostname rest

/-! ### The three-location filesystem model (for `add`, `delete`,
`generalize`) -/

/-- A flat filesystem: regular files with their contents, and symbolic links
with their targets.  Paths are plain strings. -/
structure FS where
  files : List (List Char × List Char)
  links : List (List Char × List Char)
deriving DecidableEq

/-- Model of `os.path.join(root, name)` for a relative `name`; `home_path`,
`Manager.stage_path` and `Manager.repo_path` (manager.py lines 394-403, 383-392,
268-277) are all this applied to their respective root. -/
def joinPath (root name : List Char) : List Char := root ++ [ '/' ] ++ name

/-- Content of a regular file, if present. -/
def lookupFile (fs : FS) (p : List Char) : Option (List Char) :=
  (fs.files.find? fun e => e.1 == p).map Prod.snd

/-- Model of `os.path.islink`. -/
def isLink (fs : FS) (p : List Char) : Bool :=
  (fs.links.find? fun e => e.1 == p).isSome

/-- Model of `os.path.exists`: a regular file or a symlink is present at the path. -/
def pathExists (fs : FS) (p : List Char) : Bool :=
  (fs.files.find? fun e => e.1 == p).isSome
    || (fs.links.find? fun e => e.1 == p).isSome

/-- Model of `os.remove`: delete the entry at the path; `none` models the raised
`FileNotFoundError` when nothing is there. -/
def removePath (fs : FS) (p : List Char) : Option FS :=
  if (fs.files.find? fun e => e.1 == p).isSome then
    some ⟨fs.files.filter fun e => !(e.1 == p), fs.links⟩
  else if (fs.links.find? fun e => e.1 == p).isSome then
    some ⟨fs.files, fs.links.filter fun e => !(e.1 == p)⟩
  else none

/-- Create or overwrite a regular file. -/
def writeFile (fs : FS) (p c : List Char) : FS :=
  ⟨(p, c) :: fs.files.filter fun e => !(e.1 == p), fs.links⟩

/-- Model of `os.symlink(dest, link)`: record a symlink at `link` pointing to `dest`. -/
def symlinkAt (fs : FS) (link dest : List Char) : FS :=
  ⟨fs.files, (link, dest) :: fs.links⟩

/-- Model of `shutil.move(src, dst)` for a regular file; `none` models the raised
error when the source does not exist. -/
def moveFile (fs : FS) (src dst : List Char) : Option FS :=
  match lookupFile fs src with
  | none => none
  | some c =>
    match removePath fs src with
    | none => none
    | some fs1 => some (writeFile fs1 dst c)

/-- Model of `Manager.delete` (manager.py lines 63-90).  Each of the three removals is
wrapped in `try/except FileNotFoundError` that prints a warning and continues,
so the operation always completes; the result is the final filesystem, the
number of warnings printed, and whether the repository collaborator's
`remove` was invoked. -/
def delete (fs : FS) (homeRoot stageRoot repoRoot dotfilePath : List Char)
    (rm_repo commit : Bool) : FS × Nat × Bool :=
  let s1 := match removePath fs (joinPath homeRoot dotfilePath) with
    | some fs2 => (fs2, 0)
    | none => (fs, 1)
  let s2 := match removePath s1.1 (joinPath stageRoot dotfilePath) with
    | some fs2 => (fs2, 0)
    | none => (s1.1, 1)
  let s3 :=
    if rm_repo || commit then
      match removePath s2.1 (joinPath repoRoot dotfilePath) with
      | some fs2 => (fs2, 0)
      | none => (s2.1, 1)
    else (s2.1, 0)
  (s3.1, s1.2 + s2.2 + s3.2, commit)

/-- Model of `Manager.generalize` (manager.py lines 99-166) over the filesystem model:
read the stage file (a missing file or empty content returns with the
filesystem untouched), filter, write the result to the repository file.
`none` models the fatal `exit()` inside `_identify_comment_sequence`; the
Bool records whether the repository collaborator's `update` was invoked. -/
def generalizeOp (fs : FS) (stageRoot repoRoot dotfilePath : List Char)
    (tags : List (List Char)) (commit : Bool) : Option (FS × Bool) :=
  match lookupFile fs (joinPath stageRoot dotfilePath) with
  | none => some (fs, false)
  | some content =>
    match readLines content with
    | [] => some (fs, false)
    | first :: rest =>
      match identifyCommentSequence first with
      | none => none
      | some cseq =>
        some (writeFile fs (joinPath repoRoot dotfilePath)
                (List.flatten (genFilter tags cseq false (first :: rest))),
              commit)

/-- Result of `Manager.add`: either the process exited early (with the number
of lines printed on the way out and the filesystem at that moment), or it
completed, recording whether the repository collaborator's `add` was
invoked. -/
inductive AddResult where
  | exited (prints : Nat) (fs : FS)
  | ok (fs : FS) (vcAdded : Bool)
deriving DecidableEq

/-- Model of `Manager.link` (manager.py lines 218-231): no-op when something already
exists at the home path, otherwise create the home → stage symlink. -/
def linkOp (fs : FS) (homeRoot stageRoot dotfilePath : List Char) : FS :=
  if pathExists fs (joinPath homeRoot dotfilePath) then fs
  else symlinkAt fs (joinPath homeRoot dotfilePath) (joinPath stageRoot dotfilePath)

/-- Model of `Manager.add` (manager.py lines 42-61): abort via `exit()` when the home
instance is already a symlink (printing a notice only in verbose mode);
otherwise move the home file to the stage, link, and generalize with
`commit=False`.  A failed move (missing home file) and the generalize-internal
`exit()` are also early process terminations. -/
def add (fs : FS) (homeRoot stageRoot repoRoot dotfilePath : List Char)
    (tags : List (List Char)) (verbose commit : Bool) : AddResult :=
  if isLink fs (joinPath homeRoot dotfilePath) then
    .exited (if verbose then 1 else 0) fs
  else
    match moveFile fs (joinPath homeRoot dotfilePath)
        (joinPath stageRoot dotfilePath) with
    | none => .exited 0 fs
    | some fs1 =>
      let fs2 := linkOp fs1 homeRoot stageRoot dotfilePath
      match generalizeOp fs2 stageRoot repoRoot dotfilePath tags false with
      | none => .exited 1 fs2
      | some p => .ok p.1 commit

/-! ## Basic lemmas about the string helpers -/

lemma splitFirst_eq_some {sep s pre post : List Char}
    (h : splitFirst sep s = some (pre, post)) : s = pre ++ sep ++ post := by
  revert h
  induction s generalizing pre post with
  | nil =>
    intro h
    rw [splitFirst] at h
    by_cases hp : sep.isPrefixOf ([] : List Char) = true
    · rw [if_pos hp] at h
      rw [ List.isPrefixOf_iff_prefix] at hp
      have hsep : sep = [] := List.prefix_nil.mp hp
      simp only [Option.some.injEq, Prod.mk.injEq] at h
      obtain ⟨h1, h2⟩ := h
      subst h1; subst h2
      simp [hsep]
    · rw [if_neg hp] at h
      exact absurd h (by simp)
  | cons c rest ih =>
    intro h
    rw [splitFirst] at h
    by_cases hp : sep.isPrefixOf (c :: rest) = true
    · rw [if_pos hp] at h
      rw [ List.isPrefixOf_iff_prefix] at hp
      obtain ⟨t, ht⟩ := hp
      simp only [Option.some.injEq, Prod.mk.injEq] at h
      obtain ⟨h1, h2⟩ := h
      subst h1; subst h2
      rw [← ht, List.drop_left]
      simp
    · rw [if_neg hp] at h
      cases hsf : splitFirst sep rest with
      | none => rw [hsf] at h; simp at h
      | some p =>
        obtain ⟨p1, p2⟩ := p
        rw [hsf] at h
        simp only [Option.map_some', Option.some.injEq, Prod.mk.injEq] at h
        obtain ⟨h1, h2⟩ := h
        subst h1; subst h2
        simp [ih hsf]

lemma splitFirst_of_isPrefixOf {sep t : List Char} (h : sep.isPrefixOf t = true) :
    splitFirst sep t = some ([], t.drop sep.length) := by
  cases t with
  | nil => simp [splitFirst, h]
  | cons c rest => simp [splitFirst, h]

lemma splitFirst_append_self (sep s : List Char) :
    splitFirst sep (sep ++ s) = some ([], s) := by
  have hp : sep.isPrefixOf (sep ++ s) = true := by
    rw [ List.isPrefixOf_iff_prefix]; exact List.prefix_append sep s
  rw [splitFirst_of_isPrefixOf hp, List.drop_left]

lemma hasSub_cons_of (pat : List Char) (d : Char) {rest : List Char}
    (h : hasSub pat rest = true) : hasSub pat (d :: rest) = true := by
  rw [hasSub] at h ⊢
  rw [splitFirst]
  by_cases hp : pat.isPrefixOf (d :: rest) = true
  · rw [if_pos hp]; rfl
  · rw [if_neg hp]
    cases hsf : splitFirst pat rest with
    | none => rw [hsf] at h; simp at h
    | some p => simp

lemma hasSub_infix_iff {pat s : List Char} : hasSub pat s = true ↔ pat <:+: s := by
  constructor
  · intro h
    rw [hasSub, Option.isSome_iff_exists] at h
    obtain ⟨⟨pre, post⟩, hsf⟩ := h
    exact ⟨pre, post, (splitFirst_eq_some hsf).symm⟩
  · intro h
    obtain ⟨a, b, hab⟩ := h
    subst hab
    induction a with
    | nil =>
      have hp : pat.isPrefixOf ([] ++ pat ++ b) = true := by
        rw [ List.isPrefixOf_iff_prefix]
        exact ⟨b, by simp⟩
      rw [hasSub, splitFirst_of_isPrefixOf hp]
      rfl
    | cons c a' ih =>
      have hsplit : (c :: a') ++ pat ++ b = c :: (a' ++ pat ++ b) := by simp
      rw [hsplit]
      exact hasSub_cons_of pat c ih

lemma hasSub_append_right {pat s : List Char} (x : List Char) (h : hasSub pat s = true) :
    hasSub pat (x ++ s) = true := by
  rw [hasSub_infix_iff] at h ⊢
  exact h.trans ⟨x, [], by simp⟩

/-- The worker `pySplitAux` never returns the empty list of slices. -/
lemma pySplitAux_ne_nil (fuel : Nat) (sep s : List Char) : pySplitAux fuel sep s ≠ [] := by
  cases fuel with
  | zero => simp [pySplitAux]
  | succ n =>
    rw [pySplitAux]
    cases h : splitFirst sep s with
    | none => simp
    | some p => simp

/-- Joining the slices of a split with the separator restores the string. -/
lemma pyJoin_pySplitAux (fuel : Nat) (sep : List Char) :
    ∀ s : List Char, pyJoin sep (pySplitAux fuel sep s) = s := by
  induction fuel with
  | zero => intro s; simp [pySplitAux, pyJoin]
  | succ n ih =>
    intro s
    rw [pySplitAux]
    cases h : splitFirst sep s with
    | none => simp [pyJoin]
    | some p =>
      obtain ⟨pre, post⟩ := p
      have hs := splitFirst_eq_some h
      cases hrec : pySplitAux n sep post with
      | nil => exact absurd hrec (pySplitAux_ne_nil n sep post)
      | cons q qs =>
        have hjoin : pyJoin sep (q :: qs) = post := by rw [← hrec, ih]
        simp only [pyJoin, hrec]
        rw [hjoin, hs]

lemma stripWrite_of_none {cseq line : List Char} (h : splitFirst cseq line = none) :
    stripWrite cseq line = [] := by
  rw [stripWrite, pySplit, pySplitAux, h]
  simp [pyJoin]

lemma stripWrite_of_some {cseq line pre post : List Char}
    (h : splitFirst cseq line = some (pre, post)) : stripWrite cseq line = post := by
  rw [stripWrite, pySplit, pySplitAux, h]
  simp [pyJoin_pySplitAux]

/-- Stripping a line that starts with the comment sequence removes exactly
that leading comment sequence. -/
lemma stripWrite_prepend (cseq line : List Char) :
    stripWrite cseq (cseq ++ line) = line :=
  stripWrite_of_some (splitFirst_append_self cseq line)

/-! ## The two filter state machines -/

/-- The three sequential flag updates of the filter loop collapse to one
conjunction. -/
lemma flagChain (o n e b : Bool) :
    (if e then false else if n then false else if o then false else b)
      = (b && !(o || n || e)) := by
  cases o <;> cases n <;> cases e <;> cases b <;> rfl

/-- Normal form of `specStep`: the sequential flag updates of the source
collapse to one conjunction. -/
lemma specStep_eq (tags : List (List Char)) (cseq : List Char) (co : Bool)
    (line : List Char) :
    specStep tags cseq co line =
      if hasSub (onlyDirective cseq) line && (matchingTags tags line).isEmpty then
        (true, line)
      else if hasSub (notDirective cseq) line && !(matchingTags tags line).isEmpty then
        (true, line)
      else
        (co && !hasDirective cseq line,
         if co && !hasDirective cseq line then cseq ++ line else line) := by
  simp only [specStep, hasDirective]
  rw [flagChain (hasSub (onlyDirective cseq) line) (hasSub (notDirective cseq) line)
    (hasSub (endDirective cseq) line) co]

/-- Normal form of `genStep`, mirror image of `specStep_eq`. -/
lemma genStep_eq (tags : List (List Char)) (cseq : List Char) (st : Bool)
    (line : List Char) :
    genStep tags cseq st line =
      if hasSub (onlyDirective cseq) line && (matchingTags tags line).isEmpty then
        (true, line)
      else if hasSub (notDirective cseq) line && !(matchingTags tags line).isEmpty then
        (true, line)
      else
        (st && !hasDirective cseq line,
         if st && !hasDirective cseq line then stripWrite cseq line else line) := by
  simp only [genStep, hasDirective]
  rw [flagChain (hasSub (onlyDirective cseq) line) (hasSub (notDirective cseq) line)
    (hasSub (endDirective cseq) line) st]

/-- With the comment-out flag off, `specStep` writes every line verbatim. -/
lemma specStep_false_snd (tags : List (List Char)) (cseq line : List Char) :
    (specStep tags cseq false line).2 = line := by
  rw [specStep_eq]
  split
  · rfl
  · split
    · rfl
    · simp

/-- With the strip flag off, `genStep` writes every line verbatim. -/
lemma genStep_false_snd (tags : List (List Char)) (cseq line : List Char) :
    (genStep tags cseq false line).2 = line := by
  rw [genStep_eq]
  split
  · rfl
  · split
    · rfl
    · simp

/-- A directive pattern found in a line is still found after text is prepended. -/
lemma hasDirective_of_append {cseq line : List Char} (x : List Char)
    (h : hasDirective cseq line = true) : hasDirective cseq (x ++ line) = true := by
  rw [hasDirective] at h ⊢
  rcases Bool.or_eq_true_iff.mp h with h' | he
  · rcases Bool.or_eq_true_iff.mp h' with ho | hn
    · simp [hasSub_append_right x ho]
    · simp [hasSub_append_right x hn]
  · simp [hasSub_append_right x he]

/-- One-line kernel of the round-trip: specialize a line, generalize the result,
specialize again (with the second and third pass sharing their flag `st`).
The third pass rewrites exactly what the first pass wrote, the flags of the
second and third pass agree afterwards, and the second pass can only be
stripping if the first pass was commenting out. -/
lemma roundtrip_step (tags : List (List Char)) (cseq : List Char) (co st : Bool)
    (hco : st = true → co = true) (line : List Char) :
    (specStep tags cseq st (genStep tags cseq st (specStep tags cseq co line).2).2).2
      = (specStep tags cseq co line).2
    ∧ (specStep tags cseq st (genStep tags cseq st (specStep tags cseq co line).2).2).1
      = (genStep tags cseq st (specStep tags cseq co line).2).1
    ∧ ((genStep tags cseq st (specStep tags cseq co line).2).1 = true
        → (specStep tags cseq co line).1 = true) := by
  by_cases h1 : (hasSub (onlyDirective cseq) line && (matchingTags tags line).isEmpty) = true
  · have hsm : specStep tags cseq co line = (true, line) := by
      rw [specStep_eq, if_pos h1]
    have hgn : genStep tags cseq st line = (true, line) := by
      rw [genStep_eq, if_pos h1]
    have hso : specStep tags cseq st line = (true, line) := by
      rw [specStep_eq, if_pos h1]
    simp [hsm, hgn, hso]
  · by_cases h2 : (hasSub (notDirective cseq) line && !(matchingTags tags line).isEmpty) = true
    · have hsm : specStep tags cseq co line = (true, line) := by
        rw [specStep_eq, if_neg h1, if_pos h2]
      have hgn : genStep tags cseq st line = (true, line) := by
        rw [genStep_eq, if_neg h1, if_pos h2]
      have hso : specStep tags cseq st line = (true, line) := by
        rw [specStep_eq, if_neg h1, if_pos h2]
      simp [hsm, hgn, hso]
    · by_cases h3 : (co && !hasDirective cseq line) = true
      · -- the first pass comments the line out: it writes `cseq ++ line`
        have hdl : hasDirective cseq line = false := by
          rcases Bool.and_eq_true_iff.mp h3 with ⟨-, hnd⟩
          simpa using hnd
        have hsm : specStep tags cseq co line = (true, cseq ++ line) := by
          rw [specStep_eq, if_neg h1, if_neg h2, h3, if_pos rfl]
        by_cases g1 : (hasSub (onlyDirective cseq) (cseq ++ line)
            && (matchingTags tags (cseq ++ line)).isEmpty) = true
        · have hgn : genStep tags cseq st (cseq ++ line) = (true, cseq ++ line) := by
            rw [genStep_eq, if_pos g1]
          have hso : specStep tags cseq st (cseq ++ line) = (true, cseq ++ line) := by
            rw [specStep_eq, if_pos g1]
          simp [hsm, hgn, hso]
        · by_cases g2 : (hasSub (notDirective cseq) (cseq ++ line)
              && !(matchingTags tags (cseq ++ line)).isEmpty) = true
          · have hgn : genStep tags cseq st (cseq ++ line) = (true, cseq ++ line) := by
              rw [genStep_eq, if_neg g1, if_pos g2]
            have hso : specStep tags cseq st (cseq ++ line) = (true, cseq ++ line) := by
              rw [specStep_eq, if_neg g1, if_pos g2]
            simp [hsm, hgn, hso]
          · by_cases hd : hasDirective cseq (cseq ++ line) = true
            · -- prepending created a directive pattern: written back verbatim
              have hf : (st && !hasDirective cseq (cseq ++ line)) = false := by
                rw [hd]; simp
              have hgn : genStep tags cseq st (cseq ++ line) = (false, cseq ++ line) := by
                rw [genStep_eq, if_neg g1, if_neg g2, hf]; simp
              have hso : specStep tags cseq st (cseq ++ line) = (false, cseq ++ line) := by
                rw [specStep_eq, if_neg g1, if_neg g2, hf]; simp
              simp [hsm, hgn, hso]
            · have hdm : hasDirective cseq (cseq ++ line) = false := by
                revert hd; cases hasDirective cseq (cseq ++ line) <;> simp
              rcases Bool.eq_false_or_eq_true st with hst | hst
              · -- the second pass strips, the third re-comments
                have hf : (st && !hasDirective cseq (cseq ++ line)) = true := by
                  rw [hst, hdm]; rfl
                have hgn : genStep tags cseq st (cseq ++ line) = (true, line) := by
                  rw [genStep_eq, if_neg g1, if_neg g2, hf, if_pos rfl, stripWrite_prepend]
                have hf2 : (st && !hasDirective cseq line) = true := by
                  rw [hst, hdl]; rfl
                have hso : specStep tags cseq st line = (true, cseq ++ line) := by
                  rw [specStep_eq, if_neg h1, if_neg h2, hf2, if_pos rfl]
                simp [hsm, hgn, hso]
              · have hf : (st && !hasDirective cseq (cseq ++ line)) = false := by
                  rw [hst]; rfl
                have hgn : genStep tags cseq st (cseq ++ line) = (false, cseq ++ line) := by
                  rw [genStep_eq, if_neg g1, if_neg g2, hf]; simp
                have hso : specStep tags cseq st (cseq ++ line) = (false, cseq ++ line) := by
                  rw [specStep_eq, if_neg g1, if_neg g2, hf]; simp
                simp [hsm, hgn, hso]
      · -- the first pass writes the line verbatim with flag off
        have h3f : (co && !hasDirective cseq line) = false := by
          revert h3; cases (co && !hasDirective cseq line) <;> simp
        have hsm : specStep tags cseq co line = (false, line) := by
          rw [specStep_eq, if_neg h1, if_neg h2, h3f]; simp
        have hgf : (st && !hasDirective cseq line) = false := by
          rcases Bool.eq_false_or_eq_true st with hst | hst
          · have hcoT : co = true := hco hst
            rw [hcoT] at h3f
            rw [hst]
            simpa using h3f
          · rw [hst]; rfl
        have hgn : genStep tags cseq st line = (false, line) := by
          rw [genStep_eq, if_neg h1, if_neg h2, hgf]; simp
        have hso : specStep tags cseq st line = (false, line) := by
          rw [specStep_eq, if_neg h1, if_neg h2, hgf]; simp
        simp [hsm, hgn, hso]

/-- Filter-level round-trip: specializing, generalizing the output, and
specializing again (the last two passes starting from the same flag) gives
the first specialization back, as long as the shared flag can only be on
when the first pass's flag is on. -/
lemma roundtrip_filter (tags : List (List Char)) (cseq : List Char) :
    ∀ (content : List (List Char)) (co st : Bool), (st = true → co = true) →
      specFilter tags cseq st (genFilter tags cseq st (specFilter tags cseq co content))
        = specFilter tags cseq co content := by
  intro content
  induction content with
  | nil => intro co st _; rfl
  | cons line rest ih =>
    intro co st hco
    obtain ⟨e1, e2, e3⟩ := roundtrip_step tags cseq co st hco line
    simp only [specFilter, genFilter]
    rw [e1, e2]
    exact congrArg _ (ih (specStep tags cseq co line).1
      (genStep tags cseq st (specStep tags cseq co line).2).1 e3)

/-- With the flag off, `specFilter` writes the first line verbatim. -/
lemma specFilter_false_cons (tags : List (List Char)) (cseq line : List Char)
    (rest : List (List Char)) :
    specFilter tags cseq false (line :: rest)
      = line :: specFilter tags cseq (specStep tags cseq false line).1 rest := by
  simp only [specFilter, specStep_false_snd]

/-- With the flag off, `genFilter` writes the first line verbatim. -/
lemma genFilter_false_cons (tags : List (List Char)) (cseq line : List Char)
    (rest : List (List Char)) :
    genFilter tags cseq false (line :: rest)
      = line :: genFilter tags cseq (genStep tags cseq false line).1 rest := by
  simp only [genFilter, genStep_false_snd]

/-- One-line kernel of generalize-inverts-specialize: under the safety
condition, generalizing what specialize wrote restores the line and keeps the
two machines' flags in lockstep. -/
lemma gen_spec_step (tags : List (List Char)) (cseq : List Char) (co : Bool)
    (line : List Char)
    (hsafe : ((!((specStep tags cseq co line).1 && !hasDirective cseq line))
        || !hasDirective cseq (cseq ++ line)) = true) :
    (genStep tags cseq co (specStep tags cseq co line).2).2 = line
    ∧ (genStep tags cseq co (specStep tags cseq co line).2).1
        = (specStep tags cseq co line).1 := by
  by_cases h1 : (hasSub (onlyDirective cseq) line && (matchingTags tags line).isEmpty) = true
  · have hsm : specStep tags cseq co line = (true, line) := by
      rw [specStep_eq, if_pos h1]
    have hgn : genStep tags cseq co line = (true, line) := by
      rw [genStep_eq, if_pos h1]
    simp [hsm, hgn]
  · by_cases h2 : (hasSub (notDirective cseq) line && !(matchingTags tags line).isEmpty) = true
    · have hsm : specStep tags cseq co line = (true, line) := by
        rw [specStep_eq, if_neg h1, if_pos h2]
      have hgn : genStep tags cseq co line = (true, line) := by
        rw [genStep_eq, if_neg h1, if_pos h2]
      simp [hsm, hgn]
    · by_cases h3 : (co && !hasDirective cseq line) = true
      · obtain ⟨hcoT, hndl⟩ := Bool.and_eq_true_iff.mp h3
        have hdl : hasDirective cseq line = false := by simpa using hndl
        have hsm : specStep tags cseq co line = (true, cseq ++ line) := by
          rw [specStep_eq, if_neg h1, if_neg h2, h3, if_pos rfl]
        have hdm : hasDirective cseq (cseq ++ line) = false := by
          rw [hsm, hdl] at hsafe
          simpa using hsafe
        have ho : hasSub (onlyDirective cseq) (cseq ++ line) = false := by
          revert hdm; rw [hasDirective]
          cases hasSub (onlyDirective cseq) (cseq ++ line) <;> simp
        have hn : hasSub (notDirective cseq) (cseq ++ line) = false := by
          revert hdm; rw [hasDirective]
          cases hasSub (notDirective cseq) (cseq ++ line) <;> simp
        have hg1 : ¬((hasSub (onlyDirective cseq) (cseq ++ line)
            && (matchingTags tags (cseq ++ line)).isEmpty) = true) := by
          rw [ho]; simp
        have hg2 : ¬((hasSub (notDirective cseq) (cseq ++ line)
            && !(matchingTags tags (cseq ++ line)).isEmpty) = true) := by
          rw [hn]; simp
        have hflag : (co && !hasDirective cseq (cseq ++ line)) = true := by
          rw [hcoT, hdm]; rfl
        have hgn : genStep tags cseq co (cseq ++ line) = (true, line) := by
          rw [genStep_eq, if_neg hg1, if_neg hg2, hflag, if_pos rfl, stripWrite_prepend]
        simp [hsm, hgn]
      · have h3f : (co && !hasDirective cseq line) = false := by
          revert h3; cases (co && !hasDirective cseq line) <;> simp
        have hsm : specStep tags cseq co line = (false, line) := by
          rw [specStep_eq, if_neg h1, if_neg h2, h3f]; simp
        have hgn : genStep tags cseq co line = (false, line) := by
          rw [genStep_eq, if_neg h1, if_neg h2, h3f]; simp
        simp [hsm, hgn]

/-- Generalize inverts specialize on safe content, with the two machines
started on the same flag. -/
lemma gen_spec_id_aux (tags : List (List Char)) (cseq : List Char) :
    ∀ (content : List (List Char)) (co : Bool),
      genSafe tags cseq co content = true →
      genFilter tags cseq co (specFilter tags cseq co content) = content := by
  intro content
  induction content with
  | nil => intro co _; rfl
  | cons line rest ih =>
    intro co hs
    simp only [genSafe] at hs
    obtain ⟨hsafe, hrest⟩ := Bool.and_eq_true_iff.mp hs
    obtain ⟨e1, e2⟩ := gen_spec_step tags cseq co line hsafe
    simp only [specFilter, genFilter]
    rw [e1, e2]
    exact congrArg _ (ih (specStep tags cseq co line).1 hrest)

/-! ## Claim C1 -/

/-- Claim C1, counterexample.  The claim's input uses a single `#` before
`only`/`end`, but the filter only recognizes the doubled comment sequence
(`'{0}{0}only'.format(cseq)`), so on the claim's exact input the specialize
filter recognizes no directive at all and returns the content unchanged —
`secretwork` does not gain a comment sequence. -/
theorem c1_counterexample :
    specializePipeline ["home".toList]
        "# comment\nline1\n#only work\nsecretwork\n#end\nline2\n".toList
      = some "# comment\nline1\n#only work\nsecretwork\n#end\nline2\n".toList
    ∧ specializePipeline ["home".toList]
        "# comment\nline1\n#only work\nsecretwork\n#end\nline2\n".toList
      ≠ some "# comment\nline1\n#only work\n#secretwork\n#end\nline2\n".toList := by
  constructor
  · decide
  · decide

/-- Claim C1, amended: with the directive lines written with the doubled
comment sequence (`##only work`, `##end`), specializing the repository file
`"# comment\nline1\n##only work\nsecretwork\n##end\nline2\n"` under host tag
set `{"home"}` yields exactly
`"# comment\nline1\n##only work\n#secretwork\n##end\nline2\n"`: the line
`secretwork` gains one leading comment sequence and every other line is
unchanged. -/
theorem c1_specialize_example :
    specializePipeline ["home".toList]
        "# comment\nline1\n##only work\nsecretwork\n##end\nline2\n".toList
      = some "# comment\nline1\n##only work\n#secretwork\n##end\nline2\n".toList := by
  decide

/-! ## Claim C2 -/

/-- Claim C2: for every file content and fixed host tag set,
`specialize(generalize(specialize(content)))` equals `specialize(content)`.
This holds for all contents, so in particular for contents with balanced
directives as the claim states (each stage re-derives the comment sequence
from the first line of its input, which all three stages preserve). -/
theorem c2_specialize_generalize_specialize (tags : List (List Char))
    (content : List (List Char)) :
    Option.bind (Option.bind (filterSpecialize tags content) (filterGeneralize tags))
        (filterSpecialize tags)
      = filterSpecialize tags content := by
  cases content with
  | nil => rfl
  | cons first rest =>
    cases hid : identifyCommentSequence first with
    | none => simp [filterSpecialize, hid]
    | some cseq =>
      have hspec : filterSpecialize tags (first :: rest)
          = some (specFilter tags cseq false (first :: rest)) := by
        simp [filterSpecialize, hid]
      have hcons : specFilter tags cseq false (first :: rest)
          = first :: specFilter tags cseq (specStep tags cseq false first).1 rest :=
        specFilter_false_cons tags cseq first rest
      have hgen : filterGeneralize tags (specFilter tags cseq false (first :: rest))
          = some (genFilter tags cseq false (specFilter tags cseq false (first :: rest))) := by
        rw [hcons]
        simp [filterGeneralize, hid]
      have hgcons : genFilter tags cseq false (specFilter tags cseq false (first :: rest))
          = first :: genFilter tags cseq (genStep tags cseq false first).1
              (specFilter tags cseq (specStep tags cseq false first).1 rest) := by
        rw [hcons, genFilter_false_cons]
      have hspec2 : filterSpecialize tags
            (genFilter tags cseq false (specFilter tags cseq false (first :: rest)))
          = some (specFilter tags cseq false
              (genFilter tags cseq false (specFilter tags cseq false (first :: rest)))) := by
        rw [hgcons]
        simp [filterSpecialize, hid]
      rw [hspec, Option.some_bind, hgen, Option.some_bind, hspec2]
      rw [roundtrip_filter tags cseq (first :: rest) false false (fun h => h)]

/-! ## Claim C3 -/

/-- Claim C3, counterexample.  Content `"# x\n##only A\n#only foo\n##end\n"`
with host tags `{B}`: specialize comments the block line `#only foo` out to
`##only foo`, but that commented line now contains the `##only` directive
pattern, so generalize parses it as a directive and writes it verbatim instead
of stripping the leading comment sequence — the original block content is not
restored (the generalize output equals the specialized text, not the
original). -/
theorem c3_counterexample :
    specializePipeline ["B".toList] "# x\n##only A\n#only foo\n##end\n".toList
      = some "# x\n##only A\n##only foo\n##end\n".toList
    ∧ generalizePipeline ["B".toList] "# x\n##only A\n##only foo\n##end\n".toList
      = some "# x\n##only A\n##only foo\n##end\n".toList
    ∧ "# x\n##only A\n##only foo\n##end\n".toList
      ≠ "# x\n##only A\n#only foo\n##end\n".toList := by
  refine ⟨by decide, by decide, by decide⟩

/-- Claim C3, amended: specialize writes directive lines verbatim and, while
in suppress mode, prepends exactly one comment sequence to each block line
(this is `specStep`); applying the generalize filter to the specialize output
restores the original content, provided no suppressed block line contains a
directive pattern once the comment sequence is prepended (`genSafe`).
Without that proviso a commented block line can itself be parsed as a
directive by generalize, as the counterexample shows. -/
theorem c3_generalize_inverts_specialize (tags : List (List Char))
    (cseq : List Char) (content : List (List Char))
    (hsafe : genSafe tags cseq false content = true) :
    genFilter tags cseq false (specFilter tags cseq false content) = content :=
  gen_spec_id_aux tags cseq content false hsafe

/-! ## Claim C4 -/

/-- The list of host tags matching a directive line is empty exactly when the
host tag set and the listed section tags do not intersect. -/
lemma matchingTags_isEmpty_iff (tags : List (List Char)) (line : List Char) :
    (matchingTags tags line).isEmpty = true
      ↔ ¬ ∃ t, t ∈ tags ∧ t ∈ sectionTags line := by
  rw [matchingTags, List.isEmpty_iff, List.filter_eq_nil_iff]
  constructor
  · rintro h ⟨t, ht, hmem⟩
    exact h t ht (List.elem_iff.mpr hmem)
  · intro h t ht hcont
    exact h ⟨t, ht, List.elem_iff.mp hcont⟩

/-- On a pure `only` directive line, the specialize filter enters suppress
mode exactly when no host tag is listed. -/
lemma specStep_only_flag (tags : List (List Char)) (cseq : List Char) (co : Bool)
    (lo : List Char) (honly : hasSub (onlyDirective cseq) lo = true)
    (hnot : hasSub (notDirective cseq) lo = false) :
    (specStep tags cseq co lo).1 = (matchingTags tags lo).isEmpty := by
  by_cases hm : (matchingTags tags lo).isEmpty = true
  · have hc1 : (hasSub (onlyDirective cseq) lo && (matchingTags tags lo).isEmpty) = true := by
      rw [honly, hm]; rfl
    rw [specStep_eq, if_pos hc1, hm]
  · have hmf : (matchingTags tags lo).isEmpty = false := by
      revert hm; cases (matchingTags tags lo).isEmpty <;> simp
    have hc1 : ¬((hasSub (onlyDirective cseq) lo && (matchingTags tags lo).isEmpty) = true) := by
      rw [hmf]; simp
    have hc2 : ¬((hasSub (notDirective cseq) lo && !(matchingTags tags lo).isEmpty) = true) := by
      rw [hnot]; simp
    have hdirT : hasDirective cseq lo = true := by
      rw [hasDirective, honly]; rfl
    have hflag : (co && !hasDirective cseq lo) = false := by
      rw [hdirT]; simp
    rw [specStep_eq, if_neg hc1, if_neg hc2]
    simp [hflag, hmf]

/-- On a pure `not` directive line, the specialize filter enters suppress mode
exactly when some host tag is listed. -/
lemma specStep_not_flag (tags : List (List Char)) (cseq : List Char) (co : Bool)
    (ln : List Char) (hnot : hasSub (notDirective cseq) ln = true)
    (honly : hasSub (onlyDirective cseq) ln = false) :
    (specStep tags cseq co ln).1 = !(matchingTags tags ln).isEmpty := by
  have hc1 : ¬((hasSub (onlyDirective cseq) ln && (matchingTags tags ln).isEmpty) = true) := by
    rw [honly]; simp
  by_cases hm : (matchingTags tags ln).isEmpty = true
  · have hc2 : ¬((hasSub (notDirective cseq) ln && !(matchingTags tags ln).isEmpty) = true) := by
      rw [hm]; simp
    have hdirT : hasDirective cseq ln = true := by
      rw [hasDirective, hnot]; simp
    have hflag : (co && !hasDirective cseq ln) = false := by
      rw [hdirT]; simp
    rw [specStep_eq, if_neg hc1, if_neg hc2]
    simp [hflag, hm]
  · have hmf : (matchingTags tags ln).isEmpty = false := by
      revert hm; cases (matchingTags tags ln).isEmpty <;> simp
    have hc2 : (hasSub (notDirective cseq) ln && !(matchingTags tags ln).isEmpty) = true := by
      rw [hnot, hmf]; rfl
    rw [specStep_eq, if_neg hc1, if_pos hc2, hmf]
    rfl

/-- Claim C4: on directive lines with the same listed tag list, `not` puts the
specialize filter into suppress mode exactly when `only` does not, and `only`
suppresses exactly when the intersection of the host tag set and the listed
tags is empty. -/
theorem c4_not_complements_only (tags : List (List Char)) (cseq : List Char)
    (co co' : Bool) (lo ln : List Char)
    (honly : hasSub (onlyDirective cseq) lo = true)
    (hnotabs : hasSub (notDirective cseq) lo = false)
    (hnot : hasSub (notDirective cseq) ln = true)
    (honlyabs : hasSub (onlyDirective cseq) ln = false)
    (htags : sectionTags lo = sectionTags ln) :
    (specStep tags cseq co' ln).1 = !(specStep tags cseq co lo).1
    ∧ ((specStep tags cseq co lo).1 = true ↔ ¬ ∃ t, t ∈ tags ∧ t ∈ sectionTags lo) := by
  have he1 := specStep_only_flag tags cseq co lo honly hnotabs
  have he2 := specStep_not_flag tags cseq co' ln hnot honlyabs
  have hmeq : matchingTags tags lo = matchingTags tags ln := by
    rw [matchingTags, matchingTags, htags]
  constructor
  · rw [he2, he1, hmeq]
  · rw [he1]
    exact matchingTags_isEmpty_iff tags lo

/-- Witness for claim C4 at a concrete pair of directive lines. -/
theorem c4_witness :
    (specStep ["a".toList] "#".toList false "##not a\n".toList).1
        = !(specStep ["a".toList] "#".toList false "##only a\n".toList).1
    ∧ ((specStep ["a".toList] "#".toList false "##only a\n".toList).1 = true
        ↔ ¬ ∃ t, t ∈ ["a".toList] ∧ t ∈ sectionTags "##only a\n".toList) :=
  c4_not_complements_only ["a".toList] "#".toList false false
    "##only a\n".toList "##not a\n".toList
    (by decide) (by decide) (by decide) (by decide) (by decide)

/-! ## Claim C10 -/

/-- If the comment sequence does not occur in a line, none of the three
directive patterns does either. -/
lemma hasDirective_false_of_no_cseq {cseq line : List Char}
    (h : splitFirst cseq line = none) : hasDirective cseq line = false := by
  have hcs : hasSub cseq line = false := by rw [hasSub, h]; rfl
  have key : ∀ kw : List Char, hasSub (cseq ++ cseq ++ kw) line = false := by
    intro kw
    cases hp : hasSub (cseq ++ cseq ++ kw) line with
    | false => rfl
    | true =>
      exfalso
      have hinf : (cseq ++ cseq ++ kw) <:+: line := hasSub_infix_iff.mp hp
      have hc : cseq <:+: (cseq ++ cseq ++ kw) := ⟨[], cseq ++ kw, by simp⟩
      have hcl : hasSub cseq line = true := hasSub_infix_iff.mpr (hc.trans hinf)
      rw [hcs] at hcl
      exact absurd hcl (by simp)
  rw [hasDirective, onlyDirective, notDirective, endDirective, key, key, key]
  rfl

/-- Split a negative `hasDirective` into its three components. -/
lemma hasDirective_parts {cseq line : List Char} (h : hasDirective cseq line = false) :
    hasSub (onlyDirective cseq) line = false ∧ hasSub (notDirective cseq) line = false
    ∧ hasSub (endDirective cseq) line = false := by
  rw [hasDirective, Bool.or_eq_false_iff, Bool.or_eq_false_iff] at h
  exact ⟨h.1.1, h.1.2, h.2⟩

/-- In strip mode, on a line without directive patterns, the generalize filter
writes the text after the first occurrence of the comment sequence. -/
lemma genStep_strip_write (tags : List (List Char)) (cseq line : List Char)
    (hd : hasDirective cseq line = false) :
    (genStep tags cseq true line).2 = stripWrite cseq line := by
  obtain ⟨ho, hn, -⟩ := hasDirective_parts hd
  have hc1 : ¬((hasSub (onlyDirective cseq) line && (matchingTags tags line).isEmpty) = true) := by
    rw [ho]; simp
  have hc2 : ¬((hasSub (notDirective cseq) line && !(matchingTags tags line).isEmpty) = true) := by
    rw [hn]; simp
  have hflag : (true && !hasDirective cseq line) = true := by rw [hd]; rfl
  rw [genStep_eq, if_neg hc1, if_neg hc2, hflag, if_pos rfl]

/-- Claim C10: in the generalize filter, while strip mode is active, a line
with no occurrence of the comment sequence is written as the empty string,
and for a line containing it the text up to and including its first
occurrence is dropped (so any text before the first occurrence is lost). -/
theorem c10_strip_mode_write (tags : List (List Char)) (cseq line : List Char) :
    (splitFirst cseq line = none → (genStep tags cseq true line).2 = [])
    ∧ (∀ pre post, splitFirst cseq line = some (pre, post) →
        hasDirective cseq line = false →
        line = pre ++ cseq ++ post ∧ (genStep tags cseq true line).2 = post) := by
  constructor
  · intro hnone
    have hd := hasDirective_false_of_no_cseq hnone
    rw [genStep_strip_write tags cseq line hd, stripWrite_of_none hnone]
  · intro pre post hsome hd
    refine ⟨splitFirst_eq_some hsome, ?_⟩
    rw [genStep_strip_write tags cseq line hd, stripWrite_of_some hsome]

/-- Witness for claim C10 at concrete lines. -/
theorem c10_witness :
    (genStep [] "#".toList true "abc\n".toList).2 = []
    ∧ (genStep [] "#".toList true "x#yz".toList).2 = "yz".toList :=
  ⟨(c10_strip_mode_write [] "#".toList "abc\n".toList).1 (by decide),
   ((c10_strip_mode_write [] "#".toList "x#yz".toList).2 "x".toList "yz".toList
      (by decide) (by decide)).2⟩

/-! ## Claim C6 -/

/-- A line of whitespace only produces no token. -/
lemma tokensAux_nil_of_all_ws :
    ∀ s : List Char, (∀ c ∈ s, pyIsSpace c = true) → tokensAux s [] = [] := by
  intro s
  induction s with
  | nil => intro _; rfl
  | cons c rest ih =>
    intro h
    have hc : pyIsSpace c = true := h c (List.mem_cons_self c rest)
    have : tokensAux (c :: rest) [] = tokensAux rest [] := by
      simp [tokensAux, hc]
    rw [this]
    exact ih fun d hd => h d (List.mem_cons_of_mem c hd)

/-- With a non-empty token in progress, the first token produced is that
token extended by the maximal non-whitespace run at the head of the input. -/
lemma tokensAux_head_acc :
    ∀ (s acc : List Char), acc ≠ [] →
      (tokensAux s acc).head?
        = some (acc.reverse ++ s.takeWhile fun c => !pyIsSpace c) := by
  intro s
  induction s with
  | nil =>
    intro acc hacc
    have hne : acc.isEmpty = false := by
      revert hacc; cases acc <;> simp
    simp [tokensAux, hne]
  | cons c rest ih =>
    intro acc hacc
    have hne : acc.isEmpty = false := by
      revert hacc; cases acc <;> simp
    by_cases hc : pyIsSpace c = true
    · have ht : (c :: rest).takeWhile (fun c => !pyIsSpace c) = [] := by
        simp [List.takeWhile_cons, hc]
      rw [ht]
      simp [tokensAux, hc, hne]
    · have hcf : pyIsSpace c = false := by
        revert hc; cases pyIsSpace c <;> simp
      have hstep : tokensAux (c :: rest) acc = tokensAux rest (c :: acc) := by
        simp [tokensAux, hcf]
      have ht : (c :: rest).takeWhile (fun c => !pyIsSpace c)
          = c :: rest.takeWhile (fun c => !pyIsSpace c) := by
        simp [List.takeWhile_cons, hcf]
      rw [hstep, ih (c :: acc) (by simp), ht]
      simp

/-- The head of `dropWhile p` fails `p`. -/
lemma head_dropWhile_false :
    ∀ (l : List Char) (p : Char → Bool) (d : Char),
      (l.dropWhile p).head? = some d → p d = false := by
  intro l
  induction l with
  | nil => intro p d h; simp [List.dropWhile] at h
  | cons x xs ih =>
    intro p d h
    by_cases hx : p x = true
    · rw [List.dropWhile_cons, if_pos hx] at h
      exact ih p d h
    · have hxf : p x = false := by
        revert hx; cases p x <;> simp
      rw [List.dropWhile_cons, if_neg hx] at h
      simp only [List.head?_cons, Option.some.injEq] at h
      rw [← h]
      exact hxf

/-- Claim C6: the comment-sequence detector returns the first maximal run of
non-whitespace characters when the line has a non-whitespace character; on a
whitespace-only line it returns no value (the fatal, process-terminating
`exit()`). -/
theorem c6_identify_comment_sequence (line : List Char) :
    ((∃ c ∈ line, pyIsSpace c = false) →
      ∃ pre tok rest, line = pre ++ tok ++ rest
        ∧ (∀ c ∈ pre, pyIsSpace c = true)
        ∧ tok ≠ []
        ∧ (∀ c ∈ tok, pyIsSpace c = false)
        ∧ (∀ c, rest.head? = some c → pyIsSpace c = true)
        ∧ identifyCommentSequence line = some tok)
    ∧ ((∀ c ∈ line, pyIsSpace c = true) → identifyCommentSequence line = none) := by
  constructor
  · induction line with
    | nil =>
      rintro ⟨c, hc, -⟩
      exact absurd hc (List.not_mem_nil c)
    | cons c rest ih =>
      intro hex
      by_cases hc : pyIsSpace c = true
      · have hex' : ∃ d ∈ rest, pyIsSpace d = false := by
          obtain ⟨d, hd, hdf⟩ := hex
          rcases List.mem_cons.mp hd with rfl | hd'
          · rw [hc] at hdf
            exact absurd hdf (by simp)
          · exact ⟨d, hd', hdf⟩
        obtain ⟨pre, tok, rest', heq, hpre, htokne, htok, hrest, hid⟩ := ih hex'
        refine ⟨c :: pre, tok, rest', by simp [heq], ?_, htokne, htok, hrest, ?_⟩
        · intro d hd
          rcases List.mem_cons.mp hd with rfl | hd'
          · exact hc
          · exact hpre d hd'
        · have hskip : tokens (c :: rest) = tokens rest := by
            simp [tokens, tokensAux, hc]
          rw [identifyCommentSequence, hskip] at *
          exact hid
      · have hcf : pyIsSpace c = false := by
          revert hc; cases pyIsSpace c <;> simp
        refine ⟨[], c :: (rest.takeWhile fun d => !pyIsSpace d),
          rest.dropWhile (fun d => !pyIsSpace d), ?_, by simp, by simp, ?_, ?_, ?_⟩
        · simp [List.takeWhile_append_dropWhile]
        · intro d hd
          rcases List.mem_cons.mp hd with rfl | hd'
          · exact hcf
          · have := List.mem_takeWhile_imp hd'
            revert this; cases pyIsSpace d <;> simp
        · intro d hd
          have h1 := head_dropWhile_false rest (fun d => !pyIsSpace d) d hd
          simp only at h1
          cases hb : pyIsSpace d with
          | true => rfl
          | false =>
            rw [hb] at h1
            simp at h1
        · have hstep : tokens (c :: rest) = tokensAux rest [c] := by
            simp [tokens, tokensAux, hcf]
          rw [identifyCommentSequence, hstep, tokensAux_head_acc rest [c] (by simp)]
          simp
  · intro hws
    rw [identifyCommentSequence, tokens, tokensAux_nil_of_all_ws line hws]
    rfl

/-- Witness for claim C6 at concrete lines, one whitespace-only and one with
a leading-whitespace comment token. -/
theorem c6_witness :
    identifyCommentSequence " \t ".toList = none
    ∧ ∃ pre tok rest, " # x\n".toList = pre ++ tok ++ rest
        ∧ (∀ c ∈ pre, pyIsSpace c = true)
        ∧ tok ≠ []
        ∧ (∀ c ∈ tok, pyIsSpace c = false)
        ∧ (∀ c, rest.head? = some c → pyIsSpace c = true)
        ∧ identifyCommentSequence " # x\n".toList = some tok :=
  ⟨(c6_identify_comment_sequence " \t ".toList).2 (by decide),
   (c6_identify_comment_sequence " # x\n".toList).1 ⟨'#', by decide, by decide⟩⟩

/-! ## Claim C5 -/

/-- Head slice of a fueled split, for positive fuel. -/
lemma pySplitAux_head (fuel : Nat) (sep s : List Char) (hf : 1 ≤ fuel) :
    (pySplitAux fuel sep s).getD 0 []
      = (match splitFirst sep s with
         | none => s
         | some p => p.1) := by
  obtain ⟨k, rfl⟩ : ∃ k, fuel = k + 1 := ⟨fuel - 1, by omega⟩
  rw [pySplitAux]
  cases h : splitFirst sep s with
  | none => rfl
  | some p =>
    obtain ⟨p1, p2⟩ := p
    rfl

/-- Python's `line.split(':')[1]` is the text between the first and second `:`. -/
lemma pySplit_getD_one (line : List Char) :
    (pySplit [':'] line).getD 1 [] = secondField line := by
  rw [pySplit, pySplitAux]
  cases h : splitFirst [':'] line with
  | none => simp [secondField, h]
  | some p =>
    obtain ⟨pre, post⟩ := p
    have hs := splitFirst_eq_some h
    have hlen : 1 ≤ line.length := by
      rw [hs]
      simp only [List.length_append, List.length_cons, List.length_nil]
      omega
    rw [List.getD_cons_succ, pySplitAux_head line.length [':'] post hlen]
    simp only [secondField, h]
    cases h2 : splitFirst [':'] post with
    | none => rfl
    | some q =>
      obtain ⟨q1, q2⟩ := q
      rfl

/-- Claim C5, counterexample.  With hostname `h` and the single mapping line
`h:a:b\n`, the code takes `line.split(':')[1]` — the text between the first
and second `:` — and returns `["a"]`, while the claim's reading (the
space-separated tag list after the first `:`) gives `["a:b"]`. -/
theorem c5_counterexample :
    get_tags "h".toList ["h:a:b\n".toList] = (["a".toList], false)
    ∧ get_tags_claimed "h".toList ["h:a:b\n".toList] = (["a:b".toList], false)
    ∧ get_tags "h".toList ["h:a:b\n".toList]
        ≠ get_tags_claimed "h".toList ["h:a:b\n".toList] := by
  refine ⟨by decide, by decide, by decide⟩

/-- Claim C5, amended: tag resolution scans the mapping lines in file order
and, for the first line that starts with the hostname followed by `:`,
returns the whitespace-split tokens of the text between the first and second
`:` of that line (text after a second `:` is discarded); if no line matches
it returns the singleton list containing the empty string and warns instead
of failing. -/
theorem c5_tag_resolution (hostname : List Char) (config : List (List Char)) :
    get_tags hostname config = get_tags_amended hostname config := by
  induction config with
  | nil => rfl
  | cons line rest ih =>
    rw [get_tags, get_tags_amended]
    by_cases hp : (hostname ++ [':']).isPrefixOf line = true
    · rw [if_pos hp, if_pos hp, pySplit_getD_one]
    · rw [if_neg hp, if_neg hp, ih]

/-! ## Claim C7 -/

/-- Model fact: `os.remove` raises exactly when nothing exists at the path. -/
lemma removePath_of_not_exists {fs : FS} {p : List Char}
    (h : pathExists fs p = false) : removePath fs p = none := by
  rw [pathExists, Bool.or_eq_false_iff] at h
  simp [removePath, h.1, h.2]

/-- Claim C7: deleting a dotfile whose home and stage instances are both
missing prints two warnings and completes normally with the filesystem
unchanged; and with every instance missing, each requested removal is
independently tolerated — the operation always returns, with one warning per
missing component, never failing. -/
theorem c7_delete_tolerates_missing (fs : FS)
    (homeRoot stageRoot repoRoot p : List Char)
    (hh : pathExists fs (joinPath homeRoot p) = false)
    (hst : pathExists fs (joinPath stageRoot p) = false) :
    delete fs homeRoot stageRoot repoRoot p false false = (fs, 2, false)
    ∧ ∀ rm_repo commit : Bool,
        pathExists fs (joinPath repoRoot p) = false →
        delete fs homeRoot stageRoot repoRoot p rm_repo commit
          = (fs, 2 + (if rm_repo || commit then 1 else 0), commit) := by
  have h1 := removePath_of_not_exists hh
  have h2 := removePath_of_not_exists hst
  constructor
  · simp [delete, h1, h2]
  · intro rm_repo commit hr
    have h3 := removePath_of_not_exists hr
    by_cases hb : (rm_repo || commit) = true
    · simp [delete, h1, h2, h3, hb]
    · simp [delete, h1, h2, h3, hb]

/-- Witness for claim C7 on the empty filesystem. -/
theorem c7_witness :
    delete ⟨[], []⟩ "h".toList "s".toList "r".toList "f".toList false false
      = (⟨[], []⟩, 2, false)
    ∧ delete ⟨[], []⟩ "h".toList "s".toList "r".toList "f".toList true false
      = (⟨[], []⟩, 3, false) := by
  refine ⟨(c7_delete_tolerates_missing ⟨[], []⟩ "h".toList "s".toList "r".toList
    "f".toList (by decide) (by decide)).1, ?_⟩
  have h := (c7_delete_tolerates_missing ⟨[], []⟩ "h".toList "s".toList "r".toList
    "f".toList (by decide) (by decide)).2 true false (by decide)
  simpa using h

/-! ## Claim C8 -/

/-- Claim C8: generalizing a path whose stage file does not exist prints
guidance and returns normally, with the filesystem — in particular the
repository instance at that path — unchanged and no version-control update
invoked. -/
theorem c8_generalize_missing_stage (fs : FS) (stageRoot repoRoot p : List Char)
    (tags : List (List Char)) (commit : Bool)
    (h : lookupFile fs (joinPath stageRoot p) = none) :
    generalizeOp fs stageRoot repoRoot p tags commit = some (fs, false) := by
  rw [generalizeOp, h]

/-- Witness for claim C8 on the empty filesystem, with `commit = true`. -/
theorem c8_witness :
    generalizeOp ⟨[], []⟩ "s".toList "r".toList "f".toList [] true
      = some (⟨[], []⟩, false) :=
  c8_generalize_missing_stage ⟨[], []⟩ "s".toList "r".toList "f".toList [] true
    (by decide)

/-! ## Claim C9 -/

/-- Claim C9, counterexample.  With verbose mode off (the default), `add` on
an already-managed path exits without printing anything: the `print` is
guarded by `self.verbose`, so "fails loudly (prints and aborts)" does not
hold — it aborts silently. -/
theorem c9_counterexample :
    add ⟨[], [("h/f".toList, "s/f".toList)]⟩ "h".toList "s".toList "r".toList
        "f".toList [] false false
      = AddResult.exited 0 ⟨[], [("h/f".toList, "s/f".toList)]⟩
    ∧ ¬ ∃ (n : Nat) (fs2 : FS), 0 < n
        ∧ add ⟨[], [("h/f".toList, "s/f".toList)]⟩ "h".toList "s".toList
            "r".toList "f".toList [] false false
          = AddResult.exited n fs2 := by
  constructor
  · decide
  · rintro ⟨n, fs2, hn, heq⟩
    have h0 : add ⟨[], [("h/f".toList, "s/f".toList)]⟩ "h".toList "s".toList
        "r".toList "f".toList [] false false
      = AddResult.exited 0 ⟨[], [("h/f".toList, "s/f".toList)]⟩ := by decide
    rw [h0] at heq
    injection heq with hn2 hfs
    omega

/-- Claim C9, amended: when the home instance is already a symlink, `add`
aborts before performing any action — the home file is not moved, no symlink
is created, no generalize runs, and the filesystem (home, stage, repository)
is returned unchanged with no version-control `add` — and it prints a notice
only when verbose mode is on. -/
theorem c9_add_aborts_on_symlink (fs : FS)
    (homeRoot stageRoot repoRoot p : List Char) (tags : List (List Char))
    (verbose commit : Bool)
    (h : isLink fs (joinPath homeRoot p) = true) :
    add fs homeRoot stageRoot repoRoot p tags verbose commit
      = AddResult.exited (if verbose then 1 else 0) fs := by
  rw [add, if_pos h]

/-- Witness for claim C9's amended theorem, in verbose mode. -/
theorem c9_witness :
    add ⟨[], [("h/f".toList, "s/f".toList)]⟩ "h".toList "s".toList "r".toList
        "f".toList [] true true
      = AddResult.exited (if (true : Bool) then 1 else 0)
          ⟨[], [("h/f".toList, "s/f".toList)]⟩ :=
  c9_add_aborts_on_symlink ⟨[], [("h/f".toList, "s/f".toList)]⟩ "h".toList
    "s".toList "r".toList "f".toList [] true true (by decide)

/-- Witness for claim C3's amended theorem at a concrete input. -/
theorem c3_witness :
    genSafe ["B".toList] "#".toList false (readLines "# h\n##only A\nsecret\n##end\n".toList)
        = true
    ∧ genFilter ["B".toList] "#".toList false
        (specFilter ["B".toList] "#".toList false
          (readLines "# h\n##only A\nsecret\n##end\n".toList))
      = readLines "# h\n##only A\nsecret\n##end\n".toList :=
  ⟨by decide,
   c3_generalize_inverts_specialize ["B".toList] "#".toList
     (readLines "# h\n##only A\nsecret\n##end\n".toList) (by decide)⟩

end Dotmgr
